import Mathlib

/-!
Verification of the lino-arguments configuration library.

The Rust sources (src/rust/src/lib.rs) are shallowly embedded here over
lists of characters.  The embedding models the ASCII behaviour of the
library: Rust `char::is_uppercase` agrees with `Char.isUpper` and
`char::to_ascii_uppercase` / `to_ascii_lowercase` agree with
`Char.toUpper` / `Char.toLower` on all ASCII characters, which is the
domain the specification is concerned with (configuration keys written
in the five naming conventions).

The `.lenv` key-value store and the two file loaders are re-exported by
the crate from a dependency and their code is not in the repository
sources, so those definitions are modelled from the specification text
(sections 4.4 and 4.5 of spec.md); they are marked as such.
-/

namespace LinoArguments

/-- Strings are modelled as lists of characters. -/
abbrev Str := List Char

/-! ### Case conversion (src/rust/src/lib.rs, lines 57-227)

The Rust scan loops of `to_upper_case`, `to_snake_case` and
`to_kebab_case` have an identical shape: for every character, first
push a separator when the character is uppercase and not at index 0,
then either map separator characters to the canonical separator or
push the case-mapped character.  `sepScan` captures that loop, with
the inserted separator, the set of mapped separator characters and the
case map as parameters; the `first` flag plays the role of the `i > 0`
test of the `enumerate` loop. -/

def sepScan (ins : Char) (isSep : Char → Bool) (f : Char → Char) : Bool → Str → Str
  | _, [] => []
  | first, c :: cs =>
    ((if c.isUpper && !first then [ins] else []) ++
      (if isSep c then [ins] else [f c])) ++ sepScan ins isSep f false cs

/-- Models the post-processing loop
`while result.contains("__") { result = result.replace("__", "_") }`
of the Rust sources: iterated replacement of a doubled separator by a
single one collapses every maximal run of separators to one
occurrence, which is what this recursion computes. -/
def squeeze (sep : Char) : Str → Str
  | [] => []
  | [c] => [c]
  | c :: d :: rest =>
    if c = sep ∧ d = sep then squeeze sep (d :: rest)
    else c :: squeeze sep (d :: rest)

/-- Absence of two adjacent occurrences of a separator. -/
def noDouble (sep : Char) : Str → Prop
  | [] => True
  | [_] => True
  | c :: d :: rest => ¬(c = sep ∧ d = sep) ∧ noDouble sep (d :: rest)

/-- Embedding of `to_upper_case` (lib.rs lines 57-84): fast path when
every character is uppercase, an underscore or a hyphen, otherwise the
scan loop followed by stripping leading underscores and collapsing
doubled underscores. -/
def to_upper_case (s : Str) : Str :=
  if s.all fun c => c.isUpper || c == '_' || c == '-' then
    s.map fun c => if c == '-' then '_' else c
  else
    squeeze '_' (List.dropWhile (fun c => c == '_')
      (sepScan '_' (fun c => c == '-' || c == ' ') Char.toUpper true s))

/-- Embedding of the scan loop shared by `to_camel_case` and
`to_pascal_case` (lib.rs lines 101-110 and 215-224): separators set the
`capitalize_next` flag and are dropped, other characters are pushed,
uppercased when the flag is set. -/
def camelScan : Bool → Str → Str
  | _, [] => []
  | cap, c :: cs =>
    if c == '-' || c == '_' || c == ' ' then camelScan true cs
    else if cap then c.toUpper :: camelScan false cs
    else c :: camelScan false cs

/-- Embedding of the final step of `to_camel_case` (lib.rs lines
113-117): when the first character of the result is uppercase it is
replaced by its lowercase form. -/
def forceFirstLower : Str → Str
  | [] => []
  | c :: cs => if c.isUpper then c.toLower :: cs else c :: cs

/-- Embedding of `to_camel_case` (lib.rs lines 96-120): the whole input
is lowercased first, then scanned with `capitalize_next` initially
false, and the first character of the result is forced to lowercase. -/
def to_camel_case (s : Str) : Str :=
  forceFirstLower (camelScan false (s.map Char.toLower))

/-- Embedding of `to_kebab_case` (lib.rs lines 132-159): fast path when
the input is entirely uppercase-or-underscore and contains an
underscore, otherwise the scan loop followed by stripping leading
hyphens and collapsing doubled hyphens. -/
def to_kebab_case (s : Str) : Str :=
  if (s.all fun c => c.isUpper || c == '_') && s.contains '_' then
    (s.map fun c => if c == '_' then '-' else c).map Char.toLower
  else
    squeeze '-' (List.dropWhile (fun c => c == '-')
      (sepScan '-' (fun c => c == '_' || c == ' ') Char.toLower true s))

/-- Embedding of `to_snake_case` (lib.rs lines 171-198): fast path when
the input is entirely uppercase-or-underscore and contains an
underscore, otherwise the scan loop followed by stripping leading
underscores and collapsing doubled underscores. -/
def to_snake_case (s : Str) : Str :=
  if (s.all fun c => c.isUpper || c == '_') && s.contains '_' then
    s.map Char.toLower
  else
    squeeze '_' (List.dropWhile (fun c => c == '_')
      (sepScan '_' (fun c => c == '-' || c == ' ') Char.toLower true s))

/-- Embedding of `to_pascal_case` (lib.rs lines 210-227): the input is
lowercased and scanned with `capitalize_next` initially true; there is
no forced-lowercase step. -/
def to_pascal_case (s : Str) : Str :=
  camelScan true (s.map Char.toLower)

/-! ### Process environment model

The process environment is modelled as an association list of
name-value pairs; `envVar` is the embedding of `std::env::var`, which
returns the value of the first binding of the name when one exists.
`setVar` is the embedding of `std::env::set_var`; prepending the new
binding makes it the one returned by every later `envVar`. -/

structure EnvState where
  vars : List (Str × Str)
deriving DecidableEq

def envVar (e : EnvState) (name : Str) : Option Str :=
  e.vars.lookup name

def setVar (e : EnvState) (name value : Str) : EnvState :=
  ⟨(name, value) :: e.vars⟩

/-- Embedding of the probe list built by `getenv` (lib.rs lines
247-254): the literal key followed by its five case-converted forms,
in the order of the Rust array literal. -/
def variants (key : Str) : List Str :=
  [key, to_upper_case key, to_camel_case key, to_kebab_case key,
    to_snake_case key, to_pascal_case key]

/-- Embedding of the probe loop of `getenv` (lib.rs lines 256-260):
return the value of the first variant that is set. -/
def lookupVariants (e : EnvState) : List Str → Option Str
  | [] => none
  | v :: vs =>
    match envVar e v with
    | some value => some value
    | none => lookupVariants e vs

/-- Embedding of `getenv` (lib.rs lines 245-263). -/
def getenv (e : EnvState) (key default : Str) : Str :=
  match lookupVariants e (variants key) with
  | some value => value
  | none => default

/-- State-passing form of the probe loop: each `std::env::var` read
returns the state it was given, since `env::var` does not write to the
environment. -/
def lookupVariantsS (e : EnvState) : List Str → Option Str × EnvState
  | [] => (none, e)
  | v :: vs =>
    match (envVar e v, e) with
    | (some value, e₁) => (some value, e₁)
    | (none, e₁) => lookupVariantsS e₁ vs

/-- State-passing embedding of `getenv`: the body of the Rust function
performs only `env::var` reads, so the final state is whatever state
the probe loop returns. -/
def getenvS (e : EnvState) (key default : Str) : Str × EnvState :=
  match lookupVariantsS e (variants key) with
  | (some value, e₁) => (value, e₁)
  | (none, e₁) => (default, e₁)

/-- Models `str::parse` digit accumulation: every character must be an
ASCII digit and there must be at least one. -/
def parseDigitsAux (acc : Nat) : Str → Option Nat
  | [] => some acc
  | c :: cs =>
    if c.isDigit then parseDigitsAux (acc * 10 + (c.toNat - 48)) cs else none

def parseDigits (s : Str) : Option Nat :=
  match s with
  | [] => none
  | _ => parseDigitsAux 0 s

/-- Models Rust `str::parse::<i64>`: an optional sign followed by at
least one ASCII digit, rejecting values outside the i64 range. -/
def parse_i64 (s : Str) : Option Int :=
  match s with
  | '+' :: rest =>
    (parseDigits rest).bind fun n =>
      if n ≤ 9223372036854775807 then some (n : Int) else none
  | '-' :: rest =>
    (parseDigits rest).bind fun n =>
      if n ≤ 9223372036854775808 then some (-(n : Int)) else none
  | _ =>
    (parseDigits s).bind fun n =>
      if n ≤ 9223372036854775807 then some (n : Int) else none

/-- Embedding of `getenv_int` (lib.rs lines 275-281): resolve with the
empty default, return the default on an empty value, otherwise parse
and fall back to the default on failure (`unwrap_or`). -/
def getenv_int (e : EnvState) (key : Str) (default : Int) : Int :=
  let value := getenv e key []
  if value = [] then default
  else (parse_i64 value).getD default

/-- Embedding of `getenv_bool` (lib.rs lines 294-304): resolve with the
empty default, return the default on an empty value, otherwise match
the lowercased value against the fixed true and false sets. -/
def getenv_bool (e : EnvState) (key : Str) (default : Bool) : Bool :=
  let value := getenv e key []
  if value = [] then default
  else
    let w := value.map Char.toLower
    if w = "true".toList ∨ w = "1".toList ∨ w = "yes".toList ∨ w = "on".toList then
      true
    else if w = "false".toList ∨ w = "0".toList ∨ w = "no".toList ∨ w = "off".toList then
      false
    else default

/-! ### Key-Value Store and Layered File Loader

The crate re-exports `load_lenv_file`, `load_lenv_file_override` and
the `LinoEnv` store from a dependency whose code is not in the
repository sources, so the definitions below are modelled from the
specification text (spec.md sections 4.4, 4.5 and 7). -/

/-- Error type of the library (lib.rs lines 31-41); the message strings
are irrelevant to the claims and are not modelled. -/
inductive ConfigError where
  | EnvError : ConfigError
  | ParseError : ConfigError
  | FileError : ConfigError
deriving DecidableEq

/-- Modelled from the spec: result of the file-system collaborator
`readFile(path) -> bytes, fails with NotFound|IOError`
(spec.md section 6). -/
inductive FileResult where
  | found : Str → FileResult
  | notFound : FileResult
  | ioError : FileResult

/-- Modelled from the spec: leading and trailing whitespace around key
and value is trimmed (spec.md section 4.4). -/
def trimStr (s : Str) : Str :=
  ((s.dropWhile Char.isWhitespace).reverse.dropWhile Char.isWhitespace).reverse

/-- Modelled from the spec: the first colon separates key from value;
returns none for a line without a colon (spec.md section 6). -/
def splitAtColon : Str → Option (Str × Str)
  | [] => none
  | c :: rest =>
    if c = ':' then some ([], rest)
    else (splitAtColon rest).map fun p => (c :: p.1, p.2)

/-- Modelled from the spec: parse one line of the lenv file; lines
without a colon are skipped (spec.md sections 4.4 and 6). -/
def parseLine (line : Str) : Option (Str × Str) :=
  (splitAtColon line).map fun p => (trimStr p.1, trimStr p.2)

/-- Modelled from the spec: `set(key, value)` inserts or replaces,
preserving the original position on replace (spec.md section 4.4). -/
def storeSet (st : List (Str × Str)) (k v : Str) : List (Str × Str) :=
  if st.any fun p => p.1 = k then
    st.map fun p => if p.1 = k then (k, v) else p
  else st ++ [(k, v)]

def splitLinesAux (cur : Str) : Str → List Str
  | [] => [cur.reverse]
  | c :: rest =>
    if c = '\n' then cur.reverse :: splitLinesAux [] rest
    else splitLinesAux (c :: cur) rest

/-- Modelled from the spec: the file format is line oriented, one entry
per line (spec.md section 6). -/
def splitLines (s : Str) : List Str :=
  splitLinesAux [] s

/-- Modelled from the spec: one parsing step of the store, skipping a
malformed line and otherwise inserting the entry (spec.md section
4.4). -/
def parseStoreStep (st : List (Str × Str)) (line : Str) : List (Str × Str) :=
  match parseLine line with
  | some p => storeSet st p.1 p.2
  | none => st

/-- Modelled from the spec: `parse(text) -> Store` never fails;
malformed lines are silently skipped and duplicate keys replace in
place (spec.md section 4.4). -/
def parseStore (text : Str) : List (Str × Str) :=
  (splitLines text).foldl parseStoreStep []

/-- Modelled from the spec: the traversal of `loadNonDestructive`
(spec.md section 4.5) over an already parsed store: set each key that
is not currently set in the environment and count the variables
actually newly set. -/
def loadStore : List (Str × Str) → EnvState → Nat × EnvState
  | [], e => (0, e)
  | (k, v) :: rest, e =>
    if envVar e k = none then
      let r := loadStore rest (setVar e k v)
      (r.1 + 1, r.2)
    else loadStore rest e

/-- Modelled from the spec: the traversal of `loadOverride` (spec.md
section 4.5): every key is written unconditionally and the count is
the number of entries. -/
def loadStoreOverride : List (Str × Str) → EnvState → Nat × EnvState
  | [], e => (0, e)
  | (k, v) :: rest, e =>
    let r := loadStoreOverride rest (setVar e k v)
    (r.1 + 1, r.2)

/-- Modelled from the spec: `loadNonDestructive(path) -> integer count,
fails with FileError`; a missing file is not an error and reports
success with count 0 (spec.md sections 4.5 and 7). -/
def load_lenv_file (fs : Str → FileResult) (path : Str) (e : EnvState) :
    Except ConfigError (Nat × EnvState) :=
  match fs path with
  | .found text => .ok (loadStore (parseStore text) e)
  | .notFound => .ok (0, e)
  | .ioError => .error ConfigError.FileError

/-- Modelled from the spec: `loadOverride(path) -> integer count, fails
with FileError`; a missing file is not an error and reports success
with count 0 (spec.md sections 4.5 and 7). -/
def load_lenv_file_override (fs : Str → FileResult) (path : Str) (e : EnvState) :
    Except ConfigError (Nat × EnvState) :=
  match fs path with
  | .found text => .ok (loadStoreOverride (parseStore text) e)
  | .notFound => .ok (0, e)
  | .ioError => .error ConfigError.FileError

/-! ### Arithmetic facts about the ASCII case maps of characters -/

theorem char_eq_of_toNat_eq {a b : Char} (h : a.toNat = b.toNat) : a = b :=
  Char.ext (UInt32.ext_iff.mpr h)

theorem isUpper_iff (c : Char) : c.isUpper = true ↔ 65 ≤ c.toNat ∧ c.toNat ≤ 90 := by
  simp only [Char.isUpper, Bool.and_eq_true, decide_eq_true_eq]
  exact Iff.rfl

theorem isLower_iff (c : Char) : c.isLower = true ↔ 97 ≤ c.toNat ∧ c.toNat ≤ 122 := by
  simp only [Char.isLower, Bool.and_eq_true, decide_eq_true_eq]
  exact Iff.rfl

theorem isDigit_iff (c : Char) : c.isDigit = true ↔ 48 ≤ c.toNat ∧ c.toNat ≤ 57 := by
  simp only [Char.isDigit, Bool.and_eq_true, decide_eq_true_eq]
  exact Iff.rfl

theorem toNat_ofNat_valid {m : Nat} (h : m.isValidChar) : (Char.ofNat m).toNat = m := by
  simp only [Char.ofNat, dif_pos h, Char.ofNatAux, Char.toNat]
  simp [UInt32.toNat, BitVec.toNat_ofNatLt]

theorem toNat_toLower (c : Char) :
    (Char.toLower c).toNat =
      if 65 ≤ c.toNat ∧ c.toNat ≤ 90 then c.toNat + 32 else c.toNat := by
  show (if c.toNat ≥ 65 ∧ c.toNat ≤ 90 then Char.ofNat (c.toNat + 32) else c).toNat = _
  by_cases h : c.toNat ≥ 65 ∧ c.toNat ≤ 90
  · have hv : (c.toNat + 32).isValidChar := by
      left
      omega
    rw [if_pos h, toNat_ofNat_valid hv, if_pos (by omega)]
  · rw [if_neg h, if_neg (by omega)]

theorem toNat_toUpper (c : Char) :
    (Char.toUpper c).toNat =
      if 97 ≤ c.toNat ∧ c.toNat ≤ 122 then c.toNat - 32 else c.toNat := by
  show (if c.toNat ≥ 97 ∧ c.toNat ≤ 122 then Char.ofNat (c.toNat - 32) else c).toNat = _
  by_cases h : c.toNat ≥ 97 ∧ c.toNat ≤ 122
  · have hv : (c.toNat - 32).isValidChar := by
      left
      omega
    rw [if_pos h, toNat_ofNat_valid hv, if_pos (by omega)]
  · rw [if_neg h, if_neg (by omega)]

theorem isUpper_toLower (c : Char) : (Char.toLower c).isUpper = false := by
  rw [← Bool.not_eq_true, isUpper_iff, toNat_toLower]
  by_cases h : 65 ≤ c.toNat ∧ c.toNat ≤ 90
  · rw [if_pos h]
    omega
  · rw [if_neg h]
    omega

theorem toLower_eq_self_of_not_upper {c : Char} (h : c.isUpper = false) :
    Char.toLower c = c := by
  apply char_eq_of_toNat_eq
  rw [toNat_toLower, if_neg]
  rw [← Bool.not_eq_true, isUpper_iff] at h
  omega

theorem toLower_toLower (c : Char) : Char.toLower (Char.toLower c) = Char.toLower c :=
  toLower_eq_self_of_not_upper (isUpper_toLower c)

theorem toLower_toUpper (c : Char) : Char.toLower (Char.toUpper c) = Char.toLower c := by
  apply char_eq_of_toNat_eq
  rw [toNat_toLower, toNat_toUpper, toNat_toLower]
  by_cases h1 : 97 ≤ c.toNat ∧ c.toNat ≤ 122
  · rw [if_pos h1]
    rw [if_pos (by omega), if_neg (by omega)]
    omega
  · rw [if_neg h1]

theorem toUpper_toLower (c : Char) : Char.toUpper (Char.toLower c) = Char.toUpper c := by
  apply char_eq_of_toNat_eq
  rw [toNat_toUpper, toNat_toLower, toNat_toUpper]
  by_cases h1 : 65 ≤ c.toNat ∧ c.toNat ≤ 90
  · rw [if_pos h1]
    rw [if_pos (by omega), if_neg (by omega)]
    omega
  · rw [if_neg h1]

theorem toLower_eq_of_not_lower {c v : Char} (h : Char.toLower c = v)
    (hv : v.isLower = false) : c = v := by
  rw [← h]
  by_cases hc : 65 ≤ c.toNat ∧ c.toNat ≤ 90
  · exfalso
    have : (Char.toLower c).isLower = true := by
      rw [isLower_iff, toNat_toLower, if_pos hc]
      omega
    rw [h, hv] at this
    exact Bool.false_ne_true this
  · apply char_eq_of_toNat_eq
    rw [toNat_toLower, if_neg hc]

theorem toUpper_eq_of_not_upper {c v : Char} (h : Char.toUpper c = v)
    (hv : v.isUpper = false) : c = v := by
  rw [← h]
  by_cases hc : 97 ≤ c.toNat ∧ c.toNat ≤ 122
  · exfalso
    have : (Char.toUpper c).isUpper = true := by
      rw [isUpper_iff, toNat_toUpper, if_pos hc]
      omega
    rw [h, hv] at this
    exact Bool.false_ne_true this
  · apply char_eq_of_toNat_eq
    rw [toNat_toUpper, if_neg hc]

theorem isUpper_toUpper_of_isAlpha {c : Char} (h : c.isAlpha = true) :
    (Char.toUpper c).isUpper = true := by
  rw [Char.isAlpha, Bool.or_eq_true, isUpper_iff, isLower_iff] at h
  rw [isUpper_iff, toNat_toUpper]
  split <;> omega


/-! ### Fidelity checks against the doctests of the Rust sources -/

/-- Evaluation of the five case conversions on the documented examples
of lib.rs agrees with the Rust doctests and unit tests. -/
theorem case_conversion_doctests :
    to_upper_case "apiKey".toList = "API_KEY".toList
    ∧ to_upper_case "my-variable-name".toList = "MY_VARIABLE_NAME".toList
    ∧ to_upper_case "API_KEY".toList = "API_KEY".toList
    ∧ to_camel_case "api-key".toList = "apiKey".toList
    ∧ to_camel_case "API_KEY".toList = "apiKey".toList
    ∧ to_camel_case "my_variable_name".toList = "myVariableName".toList
    ∧ to_kebab_case "apiKey".toList = "api-key".toList
    ∧ to_kebab_case "API_KEY".toList = "api-key".toList
    ∧ to_kebab_case "MyVariableName".toList = "my-variable-name".toList
    ∧ to_snake_case "apiKey".toList = "api_key".toList
    ∧ to_snake_case "api-key".toList = "api_key".toList
    ∧ to_snake_case "API_KEY".toList = "api_key".toList
    ∧ to_pascal_case "api-key".toList = "ApiKey".toList
    ∧ to_pascal_case "api_key".toList = "ApiKey".toList
    ∧ to_pascal_case "my-variable-name".toList = "MyVariableName".toList := by
  decide

/-- Evaluation of the environment accessors on the scenarios of the
unit and integration tests of the Rust sources. -/
theorem accessor_test_checks :
    getenv ⟨[("TEST_LINO_VAR".toList, "test_value".toList)]⟩
        "TEST_LINO_VAR".toList "default".toList = "test_value".toList
    ∧ getenv ⟨[]⟩ "NON_EXISTENT_VAR_12345".toList "default".toList = "default".toList
    ∧ getenv_int ⟨[("TEST_PORT".toList, "8080".toList)]⟩ "TEST_PORT".toList 3000 = 8080
    ∧ getenv_int ⟨[("TEST_PORT".toList, "not_a_number".toList)]⟩ "TEST_PORT".toList 3000
        = 3000
    ∧ getenv_bool ⟨[("TEST_DEBUG".toList, "true".toList)]⟩ "TEST_DEBUG".toList false = true
    ∧ getenv_bool ⟨[("TEST_DEBUG".toList, "maybe".toList)]⟩ "TEST_DEBUG".toList true = true
    ∧ getenv ⟨[("API_KEY".toList, "v".toList)]⟩ "apiKey".toList "d".toList = "v".toList := by
  decide

/-- Evaluation of the modelled lenv store on the fixtures of the
integration tests. -/
theorem lenv_store_checks :
    parseStore "LINO_PORT: 9090\nLINO_HOST: localhost\n".toList
      = [("LINO_PORT".toList, "9090".toList), ("LINO_HOST".toList, "localhost".toList)]
    ∧ parseStore "FOO: bar\n".toList = [("FOO".toList, "bar".toList)]
    ∧ (loadStore (parseStore "FOO: bar\n".toList) ⟨[("FOO".toList, "baz".toList)]⟩).1 = 0
    ∧ (loadStore (parseStore "FOO: bar\n".toList) ⟨[]⟩).1 = 1
    ∧ (loadStoreOverride (parseStore "FOO: bar\n".toList)
        ⟨[("FOO".toList, "baz".toList)]⟩).1 = 1
    ∧ envVar (loadStoreOverride (parseStore "FOO: bar\n".toList)
        ⟨[("FOO".toList, "baz".toList)]⟩).2 "FOO".toList = some "bar".toList := by
  decide

/-! ### Lemmas about the probe loop -/

theorem lookupVariants_none (e : EnvState) :
    ∀ l : List Str, (∀ v ∈ l, envVar e v = none) → lookupVariants e l = none := by
  intro l
  induction l with
  | nil => intro _; rfl
  | cons v vs ih =>
    intro h
    have hv : envVar e v = none := h v (List.mem_cons_self v vs)
    simp only [lookupVariants, hv]
    exact ih fun u hu => h u (List.mem_cons_of_mem v hu)

theorem lookupVariants_first (e : EnvState) :
    ∀ (pre : List Str) (v : Str) (post : List Str) (w : Str),
      (∀ u ∈ pre, envVar e u = none) → envVar e v = some w →
      lookupVariants e (pre ++ v :: post) = some w := by
  intro pre
  induction pre with
  | nil =>
    intro v post w _ hv
    simp only [List.nil_append, lookupVariants, hv]
  | cons u us ih =>
    intro v post w h hv
    have hu : envVar e u = none := h u (List.mem_cons_self u us)
    simp only [List.cons_append, lookupVariants, hu]
    exact ih v post w (fun x hx => h x (List.mem_cons_of_mem u hx)) hv

/-- C1: getenv probes exactly the six variants, in the fixed order
literal key, UPPER_SNAKE, camelCase, kebab-case, snake_case,
PascalCase, and returns the value of the first variant that is set;
when none of the six is set it returns the default unchanged; in
particular a set literal key always wins over any other variant. -/
theorem getenv_probe_order (e : EnvState) (key default : Str) :
    ((∀ v ∈ [key, to_upper_case key, to_camel_case key, to_kebab_case key,
        to_snake_case key, to_pascal_case key], envVar e v = none) →
      getenv e key default = default)
    ∧ (∀ w, envVar e key = some w → getenv e key default = w)
    ∧ (∀ (pre : List Str) (v : Str) (post : List Str) (w : Str),
        [key, to_upper_case key, to_camel_case key, to_kebab_case key,
          to_snake_case key, to_pascal_case key] = pre ++ v :: post →
        (∀ u ∈ pre, envVar e u = none) → envVar e v = some w →
        getenv e key default = w) := by
  refine ⟨?_, ?_, ?_⟩
  · intro h
    have : lookupVariants e (variants key) = none := lookupVariants_none e _ h
    simp only [getenv, this]
  · intro w hw
    have : lookupVariants e (variants key) = some w := by
      have := lookupVariants_first e [] key
        [to_upper_case key, to_camel_case key, to_kebab_case key,
          to_snake_case key, to_pascal_case key] w (by intro u hu; cases hu) hw
      simpa [variants] using this
    simp only [getenv, this]
  · intro pre v post w hsplit hpre hv
    have : lookupVariants e (variants key) = some w := by
      rw [show variants key = pre ++ v :: post from hsplit]
      exact lookupVariants_first e pre v post w hpre hv
    simp only [getenv, this]

/-- C1 witness: with both the literal key and a differently-cased
variant set, the literal-key value is returned. -/
theorem getenv_probe_order_witness :
    getenv ⟨[("apiKey".toList, "v1".toList), ("API_KEY".toList, "v2".toList)]⟩
      "apiKey".toList "d".toList = "v1".toList :=
  (getenv_probe_order ⟨[("apiKey".toList, "v1".toList), ("API_KEY".toList, "v2".toList)]⟩
    "apiKey".toList "d".toList).2.1 "v1".toList (by decide)

/-! ### C8: resolve does not mutate the environment -/

theorem lookupVariantsS_eq (e : EnvState) :
    ∀ l : List Str, lookupVariantsS e l = (lookupVariants e l, e) := by
  intro l
  induction l with
  | nil => rfl
  | cons v vs ih =>
    simp only [lookupVariantsS, lookupVariants]
    cases envVar e v with
    | none => simpa using ih
    | some w => rfl

/-- C8: the state-passing embedding of getenv returns the environment
it was given unchanged for every key, default and environment: no
variable is set, modified or removed by a call to resolve. -/
theorem getenv_no_mutation (e : EnvState) (key default : Str) :
    (getenvS e key default).2 = e ∧ (getenvS e key default).1 = getenv e key default := by
  unfold getenvS getenv
  rw [lookupVariantsS_eq e (variants key)]
  cases lookupVariants e (variants key) with
  | none => exact ⟨rfl, rfl⟩
  | some w => exact ⟨rfl, rfl⟩

/-! ### C10: an empty-valued variable and the typed accessors -/

/-- C10: an environment variable set to the empty string is
indistinguishable from an unset one for the typed accessors: when the
first set probe variant of a key has the empty value, getenv returns
the empty string whatever the default, and getenv_int and getenv_bool
return the caller-supplied default, exactly as when no variant is
set. -/
theorem empty_value_like_unset (e : EnvState) (key : Str)
    (pre : List Str) (v : Str) (post : List Str)
    (hsplit : variants key = pre ++ v :: post)
    (hpre : ∀ u ∈ pre, envVar e u = none)
    (hv : envVar e v = some []) :
    (∀ d, getenv e key d = []) ∧ (∀ n : Int, getenv_int e key n = n)
    ∧ (∀ b : Bool, getenv_bool e key b = b) := by
  have hlook : lookupVariants e (variants key) = some [] := by
    rw [hsplit]
    exact lookupVariants_first e pre v post [] hpre hv
  have hget : ∀ d, getenv e key d = [] := by
    intro d
    simp only [getenv, hlook]
  refine ⟨hget, ?_, ?_⟩
  · intro n
    simp only [getenv_int, hget []]
    rfl
  · intro b
    simp only [getenv_bool, hget []]
    rfl

/-- C10 witness: with PORT set to the empty string, getenv returns the
empty string and both typed accessors return their defaults. -/
theorem empty_value_like_unset_witness :
    getenv ⟨[("PORT".toList, [])]⟩ "PORT".toList "d".toList = []
    ∧ getenv_int ⟨[("PORT".toList, [])]⟩ "PORT".toList 3000 = 3000
    ∧ getenv_bool ⟨[("PORT".toList, [])]⟩ "PORT".toList true = true := by
  have h := empty_value_like_unset ⟨[("PORT".toList, [])]⟩ "PORT".toList
    [] "PORT".toList
    [to_upper_case "PORT".toList, to_camel_case "PORT".toList, to_kebab_case "PORT".toList,
      to_snake_case "PORT".toList, to_pascal_case "PORT".toList]
    (by decide) (by intro u hu; cases hu) (by decide)
  exact ⟨h.1 "d".toList, h.2.1 3000, h.2.2 true⟩

/-! ### C3: getenv_bool -/

/-- C3: getenv_bool returns true exactly when the resolved value,
lowercased, is one of true, 1, yes, on, returns false exactly when it
is one of false, 0, no, off, and returns the caller-supplied default
for any other non-empty resolved value. -/
theorem getenv_bool_truth_table (e : EnvState) (key v : Str) (b : Bool)
    (hv : getenv e key [] = v) :
    ((v.map Char.toLower = "true".toList ∨ v.map Char.toLower = "1".toList
        ∨ v.map Char.toLower = "yes".toList ∨ v.map Char.toLower = "on".toList) →
      getenv_bool e key b = true)
    ∧ ((v.map Char.toLower = "false".toList ∨ v.map Char.toLower = "0".toList
        ∨ v.map Char.toLower = "no".toList ∨ v.map Char.toLower = "off".toList) →
      getenv_bool e key b = false)
    ∧ (v ≠ [] →
      ¬(v.map Char.toLower = "true".toList ∨ v.map Char.toLower = "1".toList
        ∨ v.map Char.toLower = "yes".toList ∨ v.map Char.toLower = "on".toList) →
      ¬(v.map Char.toLower = "false".toList ∨ v.map Char.toLower = "0".toList
        ∨ v.map Char.toLower = "no".toList ∨ v.map Char.toLower = "off".toList) →
      getenv_bool e key b = b) := by
  refine ⟨?_, ?_, ?_⟩
  · intro htrue
    have hne : v ≠ [] := by
      intro h0
      subst h0
      rcases htrue with h | h | h | h <;> exact absurd h (by decide)
    simp only [getenv_bool, hv, if_neg hne]
    rw [if_pos htrue]
  · intro hfalse
    have hne : v ≠ [] := by
      intro h0
      subst h0
      rcases hfalse with h | h | h | h <;> exact absurd h (by decide)
    have htrue :
        ¬(v.map Char.toLower = "true".toList ∨ v.map Char.toLower = "1".toList
          ∨ v.map Char.toLower = "yes".toList ∨ v.map Char.toLower = "on".toList) := by
      intro h
      rcases h with h | h | h | h <;> rcases hfalse with h2 | h2 | h2 | h2 <;>
        (rw [h] at h2; revert h2; decide)
    simp only [getenv_bool, hv, if_neg hne]
    rw [if_neg htrue, if_pos hfalse]
  · intro hne htrue hfalse
    simp only [getenv_bool, hv, if_neg hne]
    rw [if_neg htrue, if_neg hfalse]

/-- C3 witness: the value YES resolves to true, the value OFF to
false, and the unrecognized value maybe falls back to the default. -/
theorem getenv_bool_truth_table_witness :
    getenv_bool ⟨[("DEBUG".toList, "YES".toList)]⟩ "DEBUG".toList false = true
    ∧ getenv_bool ⟨[("DEBUG".toList, "OFF".toList)]⟩ "DEBUG".toList true = false
    ∧ getenv_bool ⟨[("DEBUG".toList, "maybe".toList)]⟩ "DEBUG".toList true = true :=
  ⟨(getenv_bool_truth_table ⟨[("DEBUG".toList, "YES".toList)]⟩ "DEBUG".toList
      "YES".toList false (by decide)).1 (by decide),
    (getenv_bool_truth_table ⟨[("DEBUG".toList, "OFF".toList)]⟩ "DEBUG".toList
      "OFF".toList true (by decide)).2.1 (by decide),
    (getenv_bool_truth_table ⟨[("DEBUG".toList, "maybe".toList)]⟩ "DEBUG".toList
      "maybe".toList true (by decide)).2.2 (by decide) (by decide) (by decide)⟩

/-! ### C4: getenv_int -/

/-- C4: getenv_int resolves the key with the empty default; an empty
resolved value yields the supplied default, a value that parses as a
base-10 signed 64-bit integer yields the parsed integer, and any parse
failure yields the supplied default; in particular PORT=8080 gives
8080 and PORT=abc gives 3000 with default 3000. -/
theorem getenv_int_spec (e : EnvState) (key v : Str) (d : Int)
    (hv : getenv e key [] = v) :
    (v = [] → getenv_int e key d = d)
    ∧ (∀ n : Int, parse_i64 v = some n → getenv_int e key d = n)
    ∧ (parse_i64 v = none → getenv_int e key d = d)
    ∧ (∀ e₂ : EnvState, envVar e₂ "PORT".toList = some "8080".toList →
        getenv_int e₂ "PORT".toList 3000 = 8080)
    ∧ (∀ e₂ : EnvState, envVar e₂ "PORT".toList = some "abc".toList →
        getenv_int e₂ "PORT".toList 3000 = 3000) := by
  refine ⟨?_, ?_, ?_, ?_, ?_⟩
  · intro h0
    simp only [getenv_int, hv, h0, if_pos rfl, if_true]
  · intro n hn
    have hne : v ≠ [] := by
      intro h0
      rw [h0] at hn
      simp [parse_i64, parseDigits] at hn
    simp only [getenv_int, hv, if_neg hne, hn, Option.getD_some]
  · intro hn
    by_cases h0 : v = []
    · simp only [getenv_int, hv, h0, if_pos rfl, if_true]
    · simp only [getenv_int, hv, if_neg h0, hn, Option.getD_none]
  · intro e₂ h
    have hval : getenv e₂ "PORT".toList [] = "8080".toList :=
      (getenv_probe_order e₂ "PORT".toList []).2.1 "8080".toList h
    simp only [getenv_int, hval]
    decide
  · intro e₂ h
    have hval : getenv e₂ "PORT".toList [] = "abc".toList :=
      (getenv_probe_order e₂ "PORT".toList []).2.1 "abc".toList h
    simp only [getenv_int, hval]
    decide

/-- C4 witness: PORT=8080 resolves to the integer 8080 and PORT=abc
falls back to the default 3000. -/
theorem getenv_int_spec_witness :
    getenv_int ⟨[("PORT".toList, "8080".toList)]⟩ "PORT".toList 3000 = 8080
    ∧ getenv_int ⟨[("PORT".toList, "abc".toList)]⟩ "PORT".toList 3000 = 3000 :=
  ⟨(getenv_int_spec ⟨[("PORT".toList, "8080".toList)]⟩ "PORT".toList
      "8080".toList 3000 (by decide)).2.2.2.1 _ (by decide),
    (getenv_int_spec ⟨[("PORT".toList, "abc".toList)]⟩ "PORT".toList
      "abc".toList 3000 (by decide)).2.2.2.2 _ (by decide)⟩

/-! ### C7: a missing configuration file is not an error -/

/-- C7: both loaders applied to a nonexistent file path return success
with count 0 and leave the environment unchanged; a missing
configuration file is never an error. -/
theorem load_missing_file_ok (fs : Str → FileResult) (path : Str) (e : EnvState)
    (h : fs path = FileResult.notFound) :
    load_lenv_file fs path e = Except.ok (0, e)
    ∧ load_lenv_file_override fs path e = Except.ok (0, e) := by
  constructor
  · simp only [load_lenv_file, h]
  · simp only [load_lenv_file_override, h]

/-- C7 witness: on a file system without the requested path both
loaders report success with count 0. -/
theorem load_missing_file_ok_witness :
    load_lenv_file (fun _ => FileResult.notFound) "/nonexistent/file.lenv".toList ⟨[]⟩
        = Except.ok (0, (⟨[]⟩ : EnvState))
    ∧ load_lenv_file_override (fun _ => FileResult.notFound) "/nonexistent/file.lenv".toList ⟨[]⟩
        = Except.ok (0, (⟨[]⟩ : EnvState)) :=
  load_missing_file_ok (fun _ => FileResult.notFound) "/nonexistent/file.lenv".toList ⟨[]⟩ rfl

/-! ### C9: the first character of a camelCase result -/

/-- C9: whenever to_camel_case produces a non-empty output, its first
character is not an uppercase letter, even when leading separators in
the input would otherwise capitalize the first emitted letter: the
final forced-lowercase step rewrites an uppercase first character. -/
theorem to_camel_case_head_not_upper (s : Str) (c : Char) (cs : Str)
    (h : to_camel_case s = c :: cs) : c.isUpper = false := by
  unfold to_camel_case at h
  cases hscan : camelScan false (s.map Char.toLower) with
  | nil =>
    rw [hscan] at h
    simp only [forceFirstLower] at h
    exact absurd h (List.noConfusion)
  | cons c₀ cs₀ =>
    rw [hscan] at h
    simp only [forceFirstLower] at h
    by_cases hup : c₀.isUpper = true
    · rw [if_pos hup] at h
      cases h
      exact isUpper_toLower c₀
    · rw [if_neg hup] at h
      cases h
      exact Bool.not_eq_true _ |>.mp hup

/-- C9 witness: an input beginning with a separator still yields a
lowercase first character. -/
theorem to_camel_case_head_not_upper_witness : Char.isUpper 'a' = false :=
  to_camel_case_head_not_upper "_API".toList 'a' "pi".toList (by decide)

/-! ### C6: the non-destructive loader -/

theorem envVar_setVar (e : EnvState) (k v k' : Str) :
    envVar (setVar e k v) k' = if k' = k then some v else envVar e k' := by
  simp only [envVar, setVar, List.lookup]
  by_cases h : k' = k
  · subst h
    simp
  · rw [beq_false_of_ne h, if_neg h]

theorem loadStore_unchanged : ∀ (st : List (Str × Str)) (e : EnvState) (k : Str),
    (∀ p ∈ st, p.1 ≠ k) → envVar (loadStore st e).2 k = envVar e k
  | [], _, _, _ => rfl
  | (k₁, v₁) :: rest, e, k, h => by
    have hk₁ : k₁ ≠ k := h (k₁, v₁) (List.mem_cons_self _ _)
    have hrest : ∀ p ∈ rest, p.1 ≠ k := fun p hp => h p (List.mem_cons_of_mem _ hp)
    simp only [loadStore]
    by_cases hset : envVar e k₁ = none
    · rw [if_pos hset]
      have := loadStore_unchanged rest (setVar e k₁ v₁) k hrest
      simp only [this, envVar_setVar]
      rw [if_neg fun hh => hk₁ hh.symm]
    · rw [if_neg hset]
      exact loadStore_unchanged rest e k hrest

theorem loadStore_preserves_set : ∀ (st : List (Str × Str)) (e : EnvState) (k : Str),
    envVar e k ≠ none → envVar (loadStore st e).2 k = envVar e k
  | [], _, _, _ => rfl
  | (k₁, v₁) :: rest, e, k, h => by
    simp only [loadStore]
    by_cases hset : envVar e k₁ = none
    · rw [if_pos hset]
      have hk₁ : k ≠ k₁ := fun hh => h (hh ▸ hset)
      have hpres : envVar (setVar e k₁ v₁) k = envVar e k := by
        rw [envVar_setVar, if_neg hk₁]
      have := loadStore_preserves_set rest (setVar e k₁ v₁) k (by rw [hpres]; exact h)
      simp only [this, hpres]
    · rw [if_neg hset]
      exact loadStore_preserves_set rest e k h

theorem loadStore_sets : ∀ (st : List (Str × Str)) (e : EnvState) (k v : Str),
    (st.map Prod.fst).Nodup → (k, v) ∈ st → envVar e k = none →
    envVar (loadStore st e).2 k = some v
  | [], _, _, _, _, hmem, _ => absurd hmem (List.not_mem_nil _)
  | (k₁, v₁) :: rest, e, k, v, hnd, hmem, hunset => by
    rw [List.map_cons, List.nodup_cons] at hnd
    rcases List.mem_cons.mp hmem with heq | hmem₂
    · rw [Prod.mk.injEq] at heq
      obtain ⟨hk, hv⟩ := heq
      subst hk
      subst hv
      simp only [loadStore, if_pos hunset]
      have hnotin : ∀ p ∈ rest, p.1 ≠ k := by
        intro p hp hpk
        have hmm : p.1 ∈ rest.map Prod.fst := List.mem_map_of_mem Prod.fst hp
        rw [hpk] at hmm
        exact hnd.1 hmm
      rw [loadStore_unchanged rest (setVar e k v) k hnotin, envVar_setVar, if_pos rfl]
    · have hk₁ : k₁ ≠ k := by
        intro hh
        have hmm : k ∈ rest.map Prod.fst :=
          List.mem_map.mpr ⟨(k, v), hmem₂, rfl⟩
        rw [← hh] at hmm
        exact hnd.1 hmm
      simp only [loadStore]
      by_cases hset : envVar e k₁ = none
      · rw [if_pos hset]
        have hpres : envVar (setVar e k₁ v₁) k = envVar e k := by
          rw [envVar_setVar, if_neg fun hh => hk₁ hh.symm]
        exact loadStore_sets rest (setVar e k₁ v₁) k v hnd.2 hmem₂ (by rw [hpres]; exact hunset)
      · rw [if_neg hset]
        exact loadStore_sets rest e k v hnd.2 hmem₂ hunset

theorem loadStore_count : ∀ (st : List (Str × Str)) (e : EnvState),
    (st.map Prod.fst).Nodup →
    (loadStore st e).1 = st.countP fun p => (envVar e p.1).isNone
  | [], _, _ => rfl
  | (k₁, v₁) :: rest, e, hnd => by
    rw [List.map_cons, List.nodup_cons] at hnd
    simp only [loadStore]
    by_cases hset : envVar e k₁ = none
    · rw [if_pos hset]
      have hcount := loadStore_count rest (setVar e k₁ v₁) hnd.2
      have hcongr : (rest.countP fun p => (envVar (setVar e k₁ v₁) p.1).isNone)
          = rest.countP fun p => (envVar e p.1).isNone := by
        apply List.countP_congr
        intro p hp
        have hpk : p.1 ≠ k₁ := by
          intro hh
          have hmm : p.1 ∈ rest.map Prod.fst := List.mem_map_of_mem Prod.fst hp
          rw [hh] at hmm
          exact hnd.1 hmm
        rw [envVar_setVar, if_neg hpk]
      rw [List.countP_cons_of_pos]
      · simp only [hcount, hcongr]
      · simp only [hset, Option.isNone_none]
    · rw [if_neg hset]
      rw [List.countP_cons_of_neg]
      · exact loadStore_count rest e hnd.2
      · simp only [Option.isNone_iff_eq_none]
        exact fun hh => hset hh

theorem storeSet_fst_nodup (st : List (Str × Str)) (k v : Str)
    (h : (st.map Prod.fst).Nodup) : ((storeSet st k v).map Prod.fst).Nodup := by
  unfold storeSet
  by_cases hany : (st.any fun p => decide (p.1 = k)) = true
  · rw [if_pos hany]
    have hmap : ((st.map fun p => if p.1 = k then (k, v) else p).map Prod.fst)
        = st.map Prod.fst := by
      rw [List.map_map]
      apply List.map_congr_left
      intro p _
      by_cases hp : p.1 = k
      · simp [hp]
      · simp [hp]
    rw [hmap]
    exact h
  · rw [if_neg hany]
    rw [List.map_append]
    apply List.Nodup.append h (by simp)
    intro a ha hb
    simp only [List.map_cons, List.map_nil, List.mem_singleton] at hb
    subst hb
    rcases List.mem_map.mp ha with ⟨p, hp, hpk⟩
    exact hany (List.any_eq_true.mpr ⟨p, hp, by simp [hpk]⟩)

theorem parseStore_fold_nodup : ∀ (lines : List Str) (st : List (Str × Str)),
    (st.map Prod.fst).Nodup → (((lines.foldl parseStoreStep st)).map Prod.fst).Nodup
  | [], _, h => h
  | line :: rest, st, h => by
    simp only [List.foldl_cons]
    apply parseStore_fold_nodup rest
    unfold parseStoreStep
    cases parseLine line with
    | none => exact h
    | some p => exact storeSet_fst_nodup st p.1 p.2 h

theorem parseStore_keys_nodup (text : Str) : ((parseStore text).map Prod.fst).Nodup :=
  parseStore_fold_nodup (splitLines text) [] List.nodup_nil

/-- C6: the non-destructive loader sets, for each key parsed from the
file, the environment variable of that exact key name only when it is
not currently set, leaves already-set variables untouched, leaves
variables that do not occur in the file untouched, and returns the
count of variables actually newly set, which is 0 when every key in
the file was already set. -/
theorem load_lenv_nondestructive (fs : Str → FileResult) (path : Str) (e : EnvState)
    (text : Str) (h : fs path = FileResult.found text) :
    load_lenv_file fs path e = Except.ok (loadStore (parseStore text) e)
    ∧ (∀ k v, (k, v) ∈ parseStore text → envVar e k = none →
        envVar (loadStore (parseStore text) e).2 k = some v)
    ∧ (∀ k, envVar e k ≠ none →
        envVar (loadStore (parseStore text) e).2 k = envVar e k)
    ∧ (∀ k, (∀ p ∈ parseStore text, p.1 ≠ k) →
        envVar (loadStore (parseStore text) e).2 k = envVar e k)
    ∧ ((loadStore (parseStore text) e).1
        = (parseStore text).countP fun p => (envVar e p.1).isNone)
    ∧ ((∀ p ∈ parseStore text, envVar e p.1 ≠ none) →
        (loadStore (parseStore text) e).1 = 0) := by
  refine ⟨?_, ?_, ?_, ?_, ?_, ?_⟩
  · simp only [load_lenv_file, h]
  · intro k v hmem hunset
    exact loadStore_sets (parseStore text) e k v (parseStore_keys_nodup text) hmem hunset
  · intro k hset
    exact loadStore_preserves_set (parseStore text) e k hset
  · intro k hout
    exact loadStore_unchanged (parseStore text) e k hout
  · exact loadStore_count (parseStore text) e (parseStore_keys_nodup text)
  · intro hall
    rw [loadStore_count (parseStore text) e (parseStore_keys_nodup text)]
    rw [List.countP_eq_zero]
    intro p hp
    simp only [Option.isNone_iff_eq_none]
    exact hall p hp

/-- C6 witness: a file containing the line FOO: bar leaves an existing
FOO=baz untouched with count 0, and on a fresh environment sets
FOO=bar with count 1. -/
theorem load_lenv_nondestructive_witness :
    envVar (loadStore (parseStore "FOO: bar\n".toList) ⟨[("FOO".toList, "baz".toList)]⟩).2
        "FOO".toList
      = envVar ⟨[("FOO".toList, "baz".toList)]⟩ "FOO".toList
    ∧ (loadStore (parseStore "FOO: bar\n".toList) ⟨[("FOO".toList, "baz".toList)]⟩).1 = 0
    ∧ envVar (loadStore (parseStore "FOO: bar\n".toList) ⟨[]⟩).2 "FOO".toList
      = some "bar".toList :=
  ⟨(load_lenv_nondestructive (fun _ => FileResult.found "FOO: bar\n".toList) [] ⟨[("FOO".toList,
      "baz".toList)]⟩ "FOO: bar\n".toList rfl).2.2.1 "FOO".toList (by decide),
   (load_lenv_nondestructive (fun _ => FileResult.found "FOO: bar\n".toList) [] ⟨[("FOO".toList,
      "baz".toList)]⟩ "FOO: bar\n".toList rfl).2.2.2.2.2 (by decide),
   (load_lenv_nondestructive (fun _ => FileResult.found "FOO: bar\n".toList) [] ⟨[]⟩
      "FOO: bar\n".toList rfl).2.1 "FOO".toList "bar".toList (by decide) (by decide)⟩

/-! ### Structural lemmas about the scan pipeline -/

theorem mem_sepScan (ins : Char) (isSep : Char → Bool) (f : Char → Char) :
    ∀ (b : Bool) (s : Str) (x : Char), x ∈ sepScan ins isSep f b s →
      x = ins ∨ ∃ c ∈ s, isSep c = false ∧ x = f c
  | _, [], x, hx => absurd hx (List.not_mem_nil x)
  | b, c :: cs, x, hx => by
    simp only [sepScan, List.append_assoc, List.mem_append] at hx
    rcases hx with h1 | h2 | h3
    · left
      by_cases hc : (c.isUpper && !b) = true
      · rw [if_pos hc] at h1
        exact List.mem_singleton.mp h1
      · rw [if_neg hc] at h1
        exact absurd h1 (List.not_mem_nil x)
    · by_cases hc : isSep c = true
      · rw [if_pos hc] at h2
        left
        exact List.mem_singleton.mp h2
      · rw [if_neg hc] at h2
        right
        exact ⟨c, List.mem_cons_self c cs, Bool.not_eq_true _ |>.mp hc,
          List.mem_singleton.mp h2⟩
    · rcases mem_sepScan ins isSep f false cs x h3 with h | ⟨c', hc', hs', hx'⟩
      · left
        exact h
      · right
        exact ⟨c', List.mem_cons_of_mem _ hc', hs', hx'⟩

theorem sepScan_eq_self (ins : Char) (isSep : Char → Bool) (f : Char → Char) :
    ∀ (t : Str), (∀ x ∈ t, x.isUpper = false ∧ isSep x = false ∧ f x = x) →
      ∀ b, sepScan ins isSep f b t = t
  | [], _, _ => rfl
  | c :: cs, h, b => by
    obtain ⟨hup, hsep, hf⟩ := h c (List.mem_cons_self c cs)
    simp only [sepScan, hup, hsep, Bool.false_and, Bool.false_eq_true, if_false, hf,
      List.nil_append, List.singleton_append, List.cons.injEq]
    exact ⟨trivial, sepScan_eq_self ins isSep f cs
      (fun x hx => h x (List.mem_cons_of_mem _ hx)) false⟩

theorem squeeze_head (sep : Char) : ∀ l : Str, (squeeze sep l).head? = l.head?
  | [] => rfl
  | [_] => rfl
  | c :: d :: rest => by
    simp only [squeeze]
    by_cases h : c = sep ∧ d = sep
    · rw [if_pos h]
      rw [squeeze_head sep (d :: rest)]
      simp only [List.head?_cons, h.1, h.2]
    · rw [if_neg h]
      simp only [List.head?_cons]

theorem squeeze_idem (sep : Char) : ∀ l : Str, squeeze sep (squeeze sep l) = squeeze sep l
  | [] => rfl
  | [_] => rfl
  | c :: d :: rest => by
    by_cases h : c = sep ∧ d = sep
    · simp only [squeeze, if_pos h]
      exact squeeze_idem sep (d :: rest)
    · simp only [squeeze, if_neg h]
      cases hq : squeeze sep (d :: rest) with
      | nil => rfl
      | cons e es =>
        have he : e = d := by
          have hh := squeeze_head sep (d :: rest)
          rw [hq] at hh
          simpa using hh
        simp only [squeeze]
        rw [if_neg (by rw [he]; exact h)]
        congr 1
        rw [← hq]
        exact squeeze_idem sep (d :: rest)

theorem mem_squeeze (sep : Char) : ∀ (l : Str) (x : Char), x ∈ squeeze sep l → x ∈ l
  | [], _, hx => hx
  | [_], _, hx => hx
  | c :: d :: rest, x, hx => by
    simp only [squeeze] at hx
    by_cases h : c = sep ∧ d = sep
    · rw [if_pos h] at hx
      exact List.mem_cons_of_mem c (mem_squeeze sep (d :: rest) x hx)
    · rw [if_neg h] at hx
      rcases List.mem_cons.mp hx with h1 | h2
      · exact h1 ▸ List.mem_cons_self c (d :: rest)
      · exact List.mem_cons_of_mem c (mem_squeeze sep (d :: rest) x h2)

theorem dropWhile_shape (p : Char → Bool) : ∀ l : Str,
    l.dropWhile p = [] ∨ ∃ c cs, l.dropWhile p = c :: cs ∧ p c = false
  | [] => Or.inl rfl
  | c :: cs => by
    rw [List.dropWhile_cons]
    by_cases h : p c = true
    · rw [if_pos h]
      exact dropWhile_shape p cs
    · rw [if_neg h]
      exact Or.inr ⟨c, cs, rfl, Bool.not_eq_true _ |>.mp h⟩

theorem all_false_of_witness {p : Char → Bool} {s : Str} {c : Char}
    (hc : c ∈ s) (hp : p c = false) : s.all p = false := by
  rw [← Bool.not_eq_true, List.all_eq_true]
  intro h
  have hcc := h c hc
  rw [hp] at hcc
  exact Bool.false_ne_true hcc

/-! ### Idempotence analysis of the five case conversions -/

theorem to_snake_case_fix (t : Str)
    (hfix : ∀ x ∈ t, x.isUpper = false ∧ ((x == '-') || (x == ' ')) = false
      ∧ Char.toLower x = x)
    (hhead : ∀ c, t.head? = some c → (c == '_') = false)
    (hsq : squeeze '_' t = t) :
    to_snake_case t = t := by
  cases t with
  | nil => rfl
  | cons c cs =>
    have hc : (c == '_') = false := hhead c rfl
    have hcup : c.isUpper = false := (hfix c (List.mem_cons_self c cs)).1
    have hall : ((c :: cs).all fun x => x.isUpper || x == '_') = false :=
      all_false_of_witness (List.mem_cons_self c cs) (by rw [hcup, hc]; rfl)
    unfold to_snake_case
    rw [hall, Bool.false_and]
    simp only [Bool.false_eq_true, if_false]
    rw [sepScan_eq_self _ _ _ (c :: cs) hfix true]
    rw [List.dropWhile_cons, if_neg (by rw [hc]; exact Bool.false_ne_true)]
    exact hsq

theorem to_kebab_case_fix (t : Str)
    (hfix : ∀ x ∈ t, x.isUpper = false ∧ ((x == '_') || (x == ' ')) = false
      ∧ Char.toLower x = x)
    (hnous : '_' ∉ t)
    (hhead : ∀ c, t.head? = some c → (c == '-') = false)
    (hsq : squeeze '-' t = t) :
    to_kebab_case t = t := by
  have hcont : t.contains '_' = false := by
    simp only [List.contains, List.elem_eq_mem, decide_eq_false_iff_not]
    exact hnous
  cases t with
  | nil => rfl
  | cons c cs =>
    have hc : (c == '-') = false := hhead c rfl
    unfold to_kebab_case
    rw [hcont, Bool.and_false]
    simp only [Bool.false_eq_true, if_false]
    rw [sepScan_eq_self _ _ _ (c :: cs) hfix true]
    rw [List.dropWhile_cons, if_neg (by rw [hc]; exact Bool.false_ne_true)]
    exact hsq

theorem to_snake_case_idem (s : Str) (hex : ∃ c ∈ s, c.isUpper = false ∧ c ≠ '_') :
    to_snake_case (to_snake_case s) = to_snake_case s := by
  obtain ⟨c₀, hc₀, hup₀, hne₀⟩ := hex
  have hall : (s.all fun c => c.isUpper || c == '_') = false :=
    all_false_of_witness hc₀ (by rw [hup₀, beq_false_of_ne hne₀]; rfl)
  have h1 : to_snake_case s
      = squeeze '_' (List.dropWhile (fun c => c == '_')
          (sepScan '_' (fun c => c == '-' || c == ' ') Char.toLower true s)) := by
    unfold to_snake_case
    rw [hall, Bool.false_and]
    simp only [Bool.false_eq_true, if_false]
  rw [h1]
  have hmem : ∀ x ∈ squeeze '_' (List.dropWhile (fun c => c == '_')
      (sepScan '_' (fun c => c == '-' || c == ' ') Char.toLower true s)),
      x = '_' ∨ ∃ c, ((c == '-') || (c == ' ')) = false ∧ x = Char.toLower c := by
    intro x hx
    have hx1 := mem_squeeze '_' _ x hx
    have hx2 := (List.dropWhile_sublist _).subset hx1
    rcases mem_sepScan _ _ _ true s x hx2 with h | ⟨c, _, hs, hxc⟩
    · exact Or.inl h
    · exact Or.inr ⟨c, hs, hxc⟩
  apply to_snake_case_fix
  · intro x hx
    rcases hmem x hx with rfl | ⟨c, hs, rfl⟩
    · exact ⟨by decide, by decide, by decide⟩
    · refine ⟨isUpper_toLower c, ?_, toLower_toLower c⟩
      simp only [Bool.or_eq_false_iff, beq_eq_false_iff_ne] at hs ⊢
      constructor
      · intro hdash
        exact hs.1 (toLower_eq_of_not_lower hdash (by decide))
      · intro hsp
        exact hs.2 (toLower_eq_of_not_lower hsp (by decide))
  · intro c hc
    rw [squeeze_head] at hc
    rcases dropWhile_shape (fun x => x == '_')
        (sepScan '_' (fun x => x == '-' || x == ' ') Char.toLower true s)
      with hnil | ⟨c', cs', heq, hc'⟩
    · rw [hnil] at hc
      exact absurd hc (by simp)
    · rw [heq] at hc
      simp only [List.head?_cons, Option.some.injEq] at hc
      rw [← hc]
      exact hc'
  · exact squeeze_idem '_' _

theorem to_kebab_case_idem (s : Str) (hex : ∃ c ∈ s, c.isUpper = false ∧ c ≠ '_') :
    to_kebab_case (to_kebab_case s) = to_kebab_case s := by
  obtain ⟨c₀, hc₀, hup₀, hne₀⟩ := hex
  have hall : (s.all fun c => c.isUpper || c == '_') = false :=
    all_false_of_witness hc₀ (by rw [hup₀, beq_false_of_ne hne₀]; rfl)
  have h1 : to_kebab_case s
      = squeeze '-' (List.dropWhile (fun c => c == '-')
          (sepScan '-' (fun c => c == '_' || c == ' ') Char.toLower true s)) := by
    unfold to_kebab_case
    rw [hall, Bool.false_and]
    simp only [Bool.false_eq_true, if_false]
  rw [h1]
  have hmem : ∀ x ∈ squeeze '-' (List.dropWhile (fun c => c == '-')
      (sepScan '-' (fun c => c == '_' || c == ' ') Char.toLower true s)),
      x = '-' ∨ ∃ c, ((c == '_') || (c == ' ')) = false ∧ x = Char.toLower c := by
    intro x hx
    have hx1 := mem_squeeze '-' _ x hx
    have hx2 := (List.dropWhile_sublist _).subset hx1
    rcases mem_sepScan _ _ _ true s x hx2 with h | ⟨c, _, hs, hxc⟩
    · exact Or.inl h
    · exact Or.inr ⟨c, hs, hxc⟩
  apply to_kebab_case_fix
  · intro x hx
    rcases hmem x hx with rfl | ⟨c, hs, rfl⟩
    · exact ⟨by decide, by decide, by decide⟩
    · refine ⟨isUpper_toLower c, ?_, toLower_toLower c⟩
      simp only [Bool.or_eq_false_iff, beq_eq_false_iff_ne] at hs ⊢
      constructor
      · intro hus
        exact hs.1 (toLower_eq_of_not_lower hus (by decide))
      · intro hsp
        exact hs.2 (toLower_eq_of_not_lower hsp (by decide))
  · intro hin
    rcases hmem '_' hin with h | ⟨c, hs, hl⟩
    · exact absurd h (by decide)
    · have hc : c = '_' := toLower_eq_of_not_lower hl.symm (by decide)
      rw [hc] at hs
      exact absurd hs (by decide)
  · intro c hc
    rw [squeeze_head] at hc
    rcases dropWhile_shape (fun x => x == '-')
        (sepScan '-' (fun x => x == '_' || x == ' ') Char.toLower true s)
      with hnil | ⟨c', cs', heq, hc'⟩
    · rw [hnil] at hc
      exact absurd hc (by simp)
    · rw [heq] at hc
      simp only [List.head?_cons, Option.some.injEq] at hc
      rw [← hc]
      exact hc'
  · exact squeeze_idem '-' _

theorem upper_fast_fix (t : Str)
    (hall : (t.all fun c => c.isUpper || c == '_' || c == '-') = true)
    (hnodash : ∀ x ∈ t, x ≠ '-') :
    to_upper_case t = t := by
  unfold to_upper_case
  rw [if_pos hall]
  have hid : ∀ x ∈ t, (if x == '-' then '_' else x) = id x := by
    intro x hx
    rw [if_neg fun hb => hnodash x hx (by simpa using hb)]
    rfl
  rw [List.map_congr_left hid, List.map_id]

theorem to_upper_case_idem (s : Str)
    (h : ∀ c ∈ s, c.isAlpha = true ∨ c = '-' ∨ c = '_') :
    to_upper_case (to_upper_case s) = to_upper_case s := by
  by_cases hfast : (s.all fun c => c.isUpper || c == '_' || c == '-') = true
  · have h1 : to_upper_case s = s.map fun c => if c == '-' then '_' else c := by
      unfold to_upper_case
      rw [if_pos hfast]
    rw [h1]
    apply upper_fast_fix
    · rw [List.all_eq_true]
      intro x hx
      rcases List.mem_map.mp hx with ⟨c, hc, rfl⟩
      by_cases hdash : (c == '-') = true
      · rw [if_pos hdash]
        decide
      · rw [if_neg hdash]
        exact List.all_eq_true.mp hfast c hc
    · intro x hx
      rcases List.mem_map.mp hx with ⟨c, hc, rfl⟩
      by_cases hdash : (c == '-') = true
      · rw [if_pos hdash]
        decide
      · rw [if_neg hdash]
        exact beq_eq_false_iff_ne.mp (Bool.not_eq_true _ |>.mp hdash)
  · have h1 : to_upper_case s = squeeze '_' (List.dropWhile (fun c => c == '_')
        (sepScan '_' (fun c => c == '-' || c == ' ') Char.toUpper true s)) := by
      unfold to_upper_case
      rw [if_neg hfast]
    rw [h1]
    have hmem : ∀ x ∈ squeeze '_' (List.dropWhile (fun c => c == '_')
        (sepScan '_' (fun c => c == '-' || c == ' ') Char.toUpper true s)),
        x = '_' ∨ ∃ c ∈ s, ((c == '-') || (c == ' ')) = false ∧ x = Char.toUpper c := by
      intro x hx
      have hx1 := mem_squeeze '_' _ x hx
      have hx2 := (List.dropWhile_sublist _).subset hx1
      exact mem_sepScan _ _ _ true s x hx2
    apply upper_fast_fix
    · rw [List.all_eq_true]
      intro x hx
      rcases hmem x hx with rfl | ⟨c, hc, hs, rfl⟩
      · decide
      · rcases h c hc with halpha | hdash | hus
        · rw [isUpper_toUpper_of_isAlpha halpha]
          rfl
        · rw [hdash] at hs
          exact absurd hs (by decide)
        · rw [hus]
          decide
    · intro x hx
      rcases hmem x hx with rfl | ⟨c, hc, hs, rfl⟩
      · decide
      · rcases h c hc with halpha | hdash | hus
        · intro hcc
          have hu := isUpper_toUpper_of_isAlpha halpha
          rw [hcc] at hu
          exact absurd hu (by decide)
        · rw [hdash] at hs
          exact absurd hs (by decide)
        · rw [hus]
          decide

theorem notSep_bool {c : Char} (h1 : c ≠ '-') (h2 : c ≠ '_') (h3 : c ≠ ' ') :
    (c == '-' || c == '_' || c == ' ') = false := by
  simp [h1, h2, h3]

theorem toLower_notSep {c : Char} (h : c ≠ '-' ∧ c ≠ '_' ∧ c ≠ ' ') :
    Char.toLower c ≠ '-' ∧ Char.toLower c ≠ '_' ∧ Char.toLower c ≠ ' ' := by
  refine ⟨?_, ?_, ?_⟩
  · intro hh
    exact h.1 (toLower_eq_of_not_lower hh (by decide))
  · intro hh
    exact h.2.1 (toLower_eq_of_not_lower hh (by decide))
  · intro hh
    exact h.2.2 (toLower_eq_of_not_lower hh (by decide))

theorem toUpper_notSep {c : Char} (h : c ≠ '-' ∧ c ≠ '_' ∧ c ≠ ' ') :
    Char.toUpper c ≠ '-' ∧ Char.toUpper c ≠ '_' ∧ Char.toUpper c ≠ ' ' := by
  refine ⟨?_, ?_, ?_⟩
  · intro hh
    exact h.1 (toUpper_eq_of_not_upper hh (by decide))
  · intro hh
    exact h.2.1 (toUpper_eq_of_not_upper hh (by decide))
  · intro hh
    exact h.2.2 (toUpper_eq_of_not_upper hh (by decide))

theorem camelScan_eq_self : ∀ l : Str,
    (∀ c ∈ l, (c == '-' || c == '_' || c == ' ') = false) → camelScan false l = l
  | [], _ => rfl
  | c :: cs, h => by
    have hc := h c (List.mem_cons_self c cs)
    simp only [camelScan, hc, Bool.false_eq_true, if_false]
    rw [camelScan_eq_self cs fun x hx => h x (List.mem_cons_of_mem _ hx)]

theorem to_camel_case_of_no_sep (s : Str)
    (h : ∀ c ∈ s, c ≠ '-' ∧ c ≠ '_' ∧ c ≠ ' ') :
    to_camel_case s = s.map Char.toLower := by
  unfold to_camel_case
  have hm : ∀ x ∈ s.map Char.toLower, (x == '-' || x == '_' || x == ' ') = false := by
    intro x hx
    rcases List.mem_map.mp hx with ⟨c, hc, rfl⟩
    obtain ⟨h1, h2, h3⟩ := toLower_notSep (h c hc)
    exact notSep_bool h1 h2 h3
  rw [camelScan_eq_self (s.map Char.toLower) hm]
  cases hs : s.map Char.toLower with
  | nil => rfl
  | cons c cs =>
    have hcmem : c ∈ s.map Char.toLower := by
      rw [hs]
      exact List.mem_cons_self c cs
    rcases List.mem_map.mp hcmem with ⟨c₀, _, hcc⟩
    have hcu : c.isUpper = false := by
      rw [← hcc]
      exact isUpper_toLower c₀
    simp only [forceFirstLower, hcu, Bool.false_eq_true, if_false]

theorem to_camel_case_idem (s : Str)
    (h : ∀ c ∈ s, c ≠ '-' ∧ c ≠ '_' ∧ c ≠ ' ') :
    to_camel_case (to_camel_case s) = to_camel_case s := by
  rw [to_camel_case_of_no_sep s h]
  have h2 : ∀ c ∈ s.map Char.toLower, c ≠ '-' ∧ c ≠ '_' ∧ c ≠ ' ' := by
    intro x hx
    rcases List.mem_map.mp hx with ⟨c, hc, rfl⟩
    exact toLower_notSep (h c hc)
  rw [to_camel_case_of_no_sep _ h2, List.map_map]
  apply List.map_congr_left
  intro c _
  exact toLower_toLower c

theorem to_pascal_case_of_no_sep (c₀ : Char) (cs : Str)
    (h : ∀ c ∈ c₀ :: cs, c ≠ '-' ∧ c ≠ '_' ∧ c ≠ ' ') :
    to_pascal_case (c₀ :: cs)
      = Char.toUpper (Char.toLower c₀) :: cs.map Char.toLower := by
  unfold to_pascal_case
  simp only [List.map_cons]
  obtain ⟨h1, h2, h3⟩ := toLower_notSep (h c₀ (List.mem_cons_self c₀ cs))
  simp only [camelScan, notSep_bool h1 h2 h3, Bool.false_eq_true, if_false, if_true]
  rw [camelScan_eq_self]
  intro x hx
  rcases List.mem_map.mp hx with ⟨c, hc, rfl⟩
  obtain ⟨g1, g2, g3⟩ := toLower_notSep (h c (List.mem_cons_of_mem _ hc))
  exact notSep_bool g1 g2 g3

theorem to_pascal_case_idem (s : Str)
    (h : ∀ c ∈ s, c ≠ '-' ∧ c ≠ '_' ∧ c ≠ ' ') :
    to_pascal_case (to_pascal_case s) = to_pascal_case s := by
  cases s with
  | nil => rfl
  | cons c₀ cs =>
    rw [to_pascal_case_of_no_sep c₀ cs h]
    have hh : ∀ c ∈ Char.toUpper (Char.toLower c₀) :: cs.map Char.toLower,
        c ≠ '-' ∧ c ≠ '_' ∧ c ≠ ' ' := by
      intro x hx
      rcases List.mem_cons.mp hx with rfl | hx₂
      · exact toUpper_notSep (toLower_notSep (h c₀ (List.mem_cons_self c₀ cs)))
      · rcases List.mem_map.mp hx₂ with ⟨c, hc, rfl⟩
        exact toLower_notSep (h c (List.mem_cons_of_mem _ hc))
    rw [to_pascal_case_of_no_sep _ _ hh]
    rw [toLower_toUpper, toLower_toLower, List.map_map]
    congr 1
    apply List.map_congr_left
    intro c _
    exact toLower_toLower c

/-- C2 counterexample: the claim that each of the five case
conversions is idempotent on every string of letters, digits, hyphens
and underscores is false on the code: to_camel_case applied twice to
api-key gives apikey while applied once it gives apiKey (the second
pass lowercases the whole input first); to_upper_case applied twice to
a1b gives A1_B instead of A1B (the second pass inserts an underscore
before the uppercase letter that follows a digit); to_snake_case
applied twice to the string underscore-A gives a instead of the
underscore-a produced by one application (the fast path keeps the
leading underscore, the second pass strips it). -/
theorem case_conversion_not_idempotent :
    to_camel_case (to_camel_case "api-key".toList) ≠ to_camel_case "api-key".toList
    ∧ to_upper_case (to_upper_case "a1b".toList) ≠ to_upper_case "a1b".toList
    ∧ to_snake_case (to_snake_case "_A".toList) ≠ to_snake_case "_A".toList
    ∧ to_kebab_case (to_kebab_case "_A".toList) ≠ to_kebab_case "_A".toList
    ∧ to_pascal_case (to_pascal_case "api-key".toList) ≠ to_pascal_case "api-key".toList := by
  refine ⟨by decide, by decide, by decide, by decide, by decide⟩

/-- C2 (amended): idempotence holds on restricted domains only:
to_upper_case is idempotent on strings of letters, hyphens and
underscores (digits excluded); to_snake_case and to_kebab_case are
idempotent on strings containing at least one character that is
neither an uppercase letter nor an underscore (so that the all-caps
fast path is not taken); to_camel_case and to_pascal_case are
idempotent on strings containing no hyphen, underscore or space (the
word separators that trigger internal capitalization). -/
theorem case_conversion_idempotence :
    (∀ s : Str, (∀ c ∈ s, c.isAlpha = true ∨ c = '-' ∨ c = '_') →
      to_upper_case (to_upper_case s) = to_upper_case s)
    ∧ (∀ s : Str, (∃ c ∈ s, c.isUpper = false ∧ c ≠ '_') →
      to_snake_case (to_snake_case s) = to_snake_case s)
    ∧ (∀ s : Str, (∃ c ∈ s, c.isUpper = false ∧ c ≠ '_') →
      to_kebab_case (to_kebab_case s) = to_kebab_case s)
    ∧ (∀ s : Str, (∀ c ∈ s, c ≠ '-' ∧ c ≠ '_' ∧ c ≠ ' ') →
      to_camel_case (to_camel_case s) = to_camel_case s)
    ∧ (∀ s : Str, (∀ c ∈ s, c ≠ '-' ∧ c ≠ '_' ∧ c ≠ ' ') →
      to_pascal_case (to_pascal_case s) = to_pascal_case s) :=
  ⟨to_upper_case_idem, to_snake_case_idem, to_kebab_case_idem,
    to_camel_case_idem, to_pascal_case_idem⟩

/-- C2 witness: each restricted idempotence applied at a concrete
input. -/
theorem case_conversion_idempotence_witness :
    to_upper_case (to_upper_case "api-key".toList) = to_upper_case "api-key".toList
    ∧ to_snake_case (to_snake_case "apiKey".toList) = to_snake_case "apiKey".toList
    ∧ to_kebab_case (to_kebab_case "apiKey".toList) = to_kebab_case "apiKey".toList
    ∧ to_camel_case (to_camel_case "apiKey".toList) = to_camel_case "apiKey".toList
    ∧ to_pascal_case (to_pascal_case "apiKey".toList) = to_pascal_case "apiKey".toList :=
  ⟨case_conversion_idempotence.1 _ (by decide),
    case_conversion_idempotence.2.1 _ ⟨'a', by decide, by decide, by decide⟩,
    case_conversion_idempotence.2.2.1 _ ⟨'a', by decide, by decide, by decide⟩,
    case_conversion_idempotence.2.2.2.1 _ (by decide),
    case_conversion_idempotence.2.2.2.2 _ (by decide)⟩

/-! ### Round trips between conventions -/

theorem noDouble_cons (sep x : Char) (l : Str) (hx : x ≠ sep) (hl : noDouble sep l) :
    noDouble sep (x :: l) := by
  cases l with
  | nil => trivial
  | cons y ys => exact ⟨fun hh => hx hh.1, hl⟩

theorem squeeze_eq_self (sep : Char) : ∀ l : Str, noDouble sep l → squeeze sep l = l
  | [], _ => rfl
  | [_], _ => rfl
  | c :: d :: rest, h => by
    simp only [squeeze, if_neg h.1]
    rw [squeeze_eq_self sep (d :: rest) h.2]

theorem alnum_notSep {c : Char} (h : c.isAlphanum = true) :
    c ≠ '-' ∧ c ≠ '_' ∧ c ≠ ' ' := by
  rw [Char.isAlphanum, Bool.or_eq_true, Char.isAlpha, Bool.or_eq_true] at h
  refine ⟨?_, ?_, ?_⟩ <;> intro hh <;> subst hh <;>
    rcases h with (h | h) | h <;> revert h <;> decide

theorem toUpper_eq_self_of_upper {c : Char} (h : c.isUpper = true) :
    Char.toUpper c = c := by
  apply char_eq_of_toNat_eq
  rw [toNat_toUpper, if_neg]
  rw [isUpper_iff] at h
  omega

theorem toUpper_ne_us {c : Char} (h : c.isAlphanum = true) : Char.toUpper c ≠ '_' :=
  (toUpper_notSep (alnum_notSep h)).2.1

theorem noDouble_upperScan : ∀ s : Str, (∀ c ∈ s, c.isAlphanum = true) → ∀ b : Bool,
    noDouble '_' (sepScan '_' (fun c => c == '-' || c == ' ') Char.toUpper b s)
  | [], _, _ => trivial
  | c :: cs, h, b => by
    have hc := h c (List.mem_cons_self c cs)
    obtain ⟨h1, _, h3⟩ := alnum_notSep hc
    have hsep : ((c == '-') || (c == ' ')) = false := by
      simp [h1, h3]
    have htail := noDouble_upperScan cs (fun x hx => h x (List.mem_cons_of_mem _ hx)) false
    have hcons : noDouble '_'
        (Char.toUpper c :: sepScan '_' (fun x => x == '-' || x == ' ') Char.toUpper false cs) :=
      noDouble_cons _ _ _ (toUpper_ne_us hc) htail
    simp only [sepScan, hsep, Bool.false_eq_true, if_false]
    by_cases hb : (c.isUpper && !b) = true
    · rw [if_pos hb]
      simp only [List.singleton_append, List.cons_append, List.nil_append]
      exact ⟨fun hh => toUpper_ne_us hc hh.2, hcons⟩
    · rw [if_neg hb]
      simpa using hcons

theorem camel_undoes_upper : ∀ s : Str, (∀ c ∈ s, c.isAlphanum = true) →
    camelScan false
        ((sepScan '_' (fun c => c == '-' || c == ' ') Char.toUpper false s).map Char.toLower)
      = s
  | [], _ => rfl
  | c :: cs, h => by
    have hc := h c (List.mem_cons_self c cs)
    obtain ⟨h1, h2, h3⟩ := alnum_notSep hc
    have hsep : ((c == '-') || (c == ' ')) = false := by
      simp [h1, h3]
    have htail := camel_undoes_upper cs fun x hx => h x (List.mem_cons_of_mem _ hx)
    by_cases hup : c.isUpper = true
    · -- an underscore is inserted, the scan then capitalizes the next character
      have hb : (c.isUpper && !false) = true := by
        rw [hup]
        rfl
      have hscan : sepScan '_' (fun x => x == '-' || x == ' ') Char.toUpper false (c :: cs)
          = '_' :: Char.toUpper c
              :: sepScan '_' (fun x => x == '-' || x == ' ') Char.toUpper false cs := by
        simp only [sepScan, hb, hsep, Bool.false_eq_true, if_false, if_true,
          List.cons_append, List.nil_append, List.singleton_append]
      rw [hscan]
      simp only [List.map_cons]
      rw [show ('_' : Char).toLower = '_' from by decide, toLower_toUpper c]
      rw [show ∀ X : Str, camelScan false ('_' :: X) = camelScan true X from fun X => by
        simp [camelScan]]
      have hlsep := toLower_notSep (alnum_notSep hc)
      have hcond : ((c.toLower == '-' || c.toLower == '_' || c.toLower == ' ')) = false :=
        notSep_bool hlsep.1 hlsep.2.1 hlsep.2.2
      simp only [camelScan, hcond, Bool.false_eq_true, if_false, if_true]
      rw [toUpper_toLower c, toUpper_eq_self_of_upper hup, htail]
    · -- no underscore, the character is kept in place by the scan
      have hup' : c.isUpper = false := (Bool.not_eq_true _).mp hup
      have hb : (c.isUpper && !false) = false := by
        rw [hup']
        rfl
      have hscan : sepScan '_' (fun x => x == '-' || x == ' ') Char.toUpper false (c :: cs)
          = Char.toUpper c
              :: sepScan '_' (fun x => x == '-' || x == ' ') Char.toUpper false cs := by
        simp only [sepScan, hb, hsep, Bool.false_eq_true, if_false, List.nil_append,
          List.singleton_append]
      rw [hscan]
      simp only [List.map_cons]
      rw [toLower_toUpper c, toLower_eq_self_of_not_upper hup']
      simp only [camelScan, notSep_bool h1 h2 h3, Bool.false_eq_true, if_false]
      rw [htail]

theorem camel_upper_round_trip (c₀ : Char) (cs : Str)
    (hc₀ : c₀.isUpper = false) (halnum : ∀ c ∈ c₀ :: cs, c.isAlphanum = true) :
    to_camel_case (to_upper_case (c₀ :: cs)) = c₀ :: cs := by
  have hc := halnum c₀ (List.mem_cons_self c₀ cs)
  obtain ⟨h1, h2, h3⟩ := alnum_notSep hc
  have hsep : ((c₀ == '-') || (c₀ == ' ')) = false := by
    simp [h1, h3]
  have hfast : ((c₀ :: cs).all fun c => c.isUpper || c == '_' || c == '-') = false :=
    all_false_of_witness (List.mem_cons_self c₀ cs)
      (by rw [hc₀, beq_false_of_ne h2, beq_false_of_ne h1]; rfl)
  have hscan : sepScan '_' (fun c => c == '-' || c == ' ') Char.toUpper true (c₀ :: cs)
      = sepScan '_' (fun c => c == '-' || c == ' ') Char.toUpper false (c₀ :: cs) := by
    have hb1 : (c₀.isUpper && !true) = false := by
      rw [hc₀]
      rfl
    have hb2 : (c₀.isUpper && !false) = false := by
      rw [hc₀]
      rfl
    simp only [sepScan, hb1, hb2, Bool.false_eq_true, if_false]
  have hupper : to_upper_case (c₀ :: cs)
      = sepScan '_' (fun c => c == '-' || c == ' ') Char.toUpper false (c₀ :: cs) := by
    unfold to_upper_case
    rw [if_neg (by rw [hfast]; exact Bool.false_ne_true)]
    rw [hscan]
    have hshape : sepScan '_' (fun c => c == '-' || c == ' ') Char.toUpper false (c₀ :: cs)
        = Char.toUpper c₀
            :: sepScan '_' (fun c => c == '-' || c == ' ') Char.toUpper false cs := by
      have hb2 : (c₀.isUpper && !false) = false := by
        rw [hc₀]
        rfl
      simp only [sepScan, hb2, hsep, Bool.false_eq_true, if_false, List.nil_append,
        List.singleton_append]
    rw [hshape, List.dropWhile_cons,
      if_neg (by rw [beq_false_of_ne (toUpper_ne_us hc)]; exact Bool.false_ne_true)]
    rw [← hshape]
    exact squeeze_eq_self '_' _ (noDouble_upperScan (c₀ :: cs) halnum false)
  rw [hupper]
  unfold to_camel_case
  rw [camel_undoes_upper (c₀ :: cs) halnum]
  simp only [forceFirstLower, hc₀, Bool.false_eq_true, if_false]

/-- C5: converting a key from one naming convention to another and
back recovers the original identifier modulo casing normalization.
The first conjunct is the general law behind the highlighted instance:
for every alphanumeric identifier that does not start with an
uppercase letter, to_camel_case inverts to_upper_case exactly.  The
remaining conjuncts check the highlighted instance
to_camel_case (to_upper_case of apiKey) equals apiKey, and every
ordered pair of distinct conventions on the canonical renderings of
the key api key, comparing modulo lowercasing. -/
theorem convention_round_trips :
    (∀ (c₀ : Char) (cs : Str), c₀.isUpper = false →
      (∀ c ∈ c₀ :: cs, c.isAlphanum = true) →
      to_camel_case (to_upper_case (c₀ :: cs)) = c₀ :: cs)
    ∧ to_camel_case (to_upper_case "apiKey".toList) = "apiKey".toList
    ∧ ((to_camel_case (to_upper_case "apiKey".toList)).map Char.toLower
        = "apiKey".toList.map Char.toLower
      ∧ (to_camel_case (to_kebab_case "apiKey".toList)).map Char.toLower
        = "apiKey".toList.map Char.toLower
      ∧ (to_camel_case (to_snake_case "apiKey".toList)).map Char.toLower
        = "apiKey".toList.map Char.toLower
      ∧ (to_camel_case (to_pascal_case "apiKey".toList)).map Char.toLower
        = "apiKey".toList.map Char.toLower
      ∧ (to_upper_case (to_camel_case "API_KEY".toList)).map Char.toLower
        = "API_KEY".toList.map Char.toLower
      ∧ (to_upper_case (to_kebab_case "API_KEY".toList)).map Char.toLower
        = "API_KEY".toList.map Char.toLower
      ∧ (to_upper_case (to_snake_case "API_KEY".toList)).map Char.toLower
        = "API_KEY".toList.map Char.toLower
      ∧ (to_upper_case (to_pascal_case "API_KEY".toList)).map Char.toLower
        = "API_KEY".toList.map Char.toLower
      ∧ (to_kebab_case (to_camel_case "api-key".toList)).map Char.toLower
        = "api-key".toList.map Char.toLower
      ∧ (to_kebab_case (to_upper_case "api-key".toList)).map Char.toLower
        = "api-key".toList.map Char.toLower
      ∧ (to_kebab_case (to_snake_case "api-key".toList)).map Char.toLower
        = "api-key".toList.map Char.toLower
      ∧ (to_kebab_case (to_pascal_case "api-key".toList)).map Char.toLower
        = "api-key".toList.map Char.toLower
      ∧ (to_snake_case (to_camel_case "api_key".toList)).map Char.toLower
        = "api_key".toList.map Char.toLower
      ∧ (to_snake_case (to_upper_case "api_key".toList)).map Char.toLower
        = "api_key".toList.map Char.toLower
      ∧ (to_snake_case (to_kebab_case "api_key".toList)).map Char.toLower
        = "api_key".toList.map Char.toLower
      ∧ (to_snake_case (to_pascal_case "api_key".toList)).map Char.toLower
        = "api_key".toList.map Char.toLower
      ∧ (to_pascal_case (to_camel_case "ApiKey".toList)).map Char.toLower
        = "ApiKey".toList.map Char.toLower
      ∧ (to_pascal_case (to_upper_case "ApiKey".toList)).map Char.toLower
        = "ApiKey".toList.map Char.toLower
      ∧ (to_pascal_case (to_kebab_case "ApiKey".toList)).map Char.toLower
        = "ApiKey".toList.map Char.toLower
      ∧ (to_pascal_case (to_snake_case "ApiKey".toList)).map Char.toLower
        = "ApiKey".toList.map Char.toLower) :=
  ⟨fun c₀ cs h1 h2 => camel_upper_round_trip c₀ cs h1 h2, by decide, by decide⟩

/-- C5 witness: the general round trip applied at the identifier
apiKey. -/
theorem convention_round_trips_witness :
    to_camel_case (to_upper_case ('a' :: "piKey".toList)) = 'a' :: "piKey".toList :=
  convention_round_trips.1 'a' "piKey".toList (by decide) (by decide)

end LinoArguments
